import Mathlib

/- Verification development for the Craig ennuizel plugin (ennuizel-craig.ts):
a shallow embedding of the track-loading pipeline — the inbound chunk handling
of inStream.pull, the handshake handling of sock.onmessage, the decode loop of
trackStream.pull, and the bounded-concurrency scheduling loop of loadData. -/

namespace Craig

/- ## Wire protocol: inStream.pull (one queued part) -/

/-- Little-endian 32-bit read of the first four bytes of a byte list, as
DataView.getUint32(0, true) computes it; positions past the end read as 0
(only used when the length has already been checked). -/
def fromLE4 (b : List ℕ) : ℕ :=
  b.getD 0 0 + b.getD 1 0 * 256 + b.getD 2 0 * 65536 + b.getD 3 0 * 16777216

/-- DataView.getUint32(0, true): reads the 4 bytes at offset 0, failing
(none, the RangeError) when the buffer is shorter than 4 bytes. -/
def getUint32LE (b : List ℕ) : Option ℕ :=
  if 4 ≤ b.length then some (fromLE4 b) else none

/-- Little-endian byte image of a 32-bit store, as DataView.setUint32 with
littleEndian = true lays it out (including the implicit ToUint32 wrap). -/
def toLE4 (n : ℕ) : List ℕ :=
  [n % 256, n / 256 % 256, n / 65536 % 256, n / 16777216 % 256]

/-- The acknowledgement frame: new ArrayBuffer(8), zero-filled, then
ack.setUint32(4, seq, true). -/
def mkAck (seq : ℕ) : List ℕ :=
  [0, 0, 0, 0] ++ toLE4 seq

/-- What inStream.pull does with one part besides acking: enqueue the payload
(part.slice(4)) to the controller, or close the stream. -/
inductive PartAction
  | enqueue (payload : List ℕ)
  | close
deriving DecidableEq, Repr

/-- Observable outcome of processing one part in inStream.pull: the optional
acknowledgement frame sent, the controller action, and whether sock.close()
was called. -/
structure PullStep where
  ack : Option (List ℕ)
  action : PartAction
  sockClose : Bool
deriving DecidableEq, Repr

/-- One iteration of inStream.pull processing a shifted part, given the
sampled wsClosed flag (sock.readyState is CLOSING or CLOSED). An error is
the RangeError thrown by partD.getUint32(0, true) on a short buffer. -/
def inStreamPull (wsClosed : Bool) (part : List ℕ) : Except Unit PullStep :=
  if wsClosed then
    if 4 < part.length then .ok ⟨none, .enqueue (part.drop 4), false⟩
    else .ok ⟨none, .close, false⟩
  else
    match getUint32LE part with
    | none => .error ()
    | some seq =>
      if 4 < part.length then .ok ⟨some (mkAck seq), .enqueue (part.drop 4), false⟩
      else .ok ⟨some (mkAck seq), .close, true⟩

/-- The acknowledgement frames emitted over a trace of processed parts, each
paired with the wsClosed flag sampled when it was shifted. -/
def acksOf (l : List (Bool × List ℕ)) : List (List ℕ) :=
  l.filterMap fun e =>
    match inStreamPull e.1 e.2 with
    | .ok st => st.ack
    | .error _ => none

/- ## Handshake: sock.onmessage -/

/-- The fixed success marker the first inbound message is compared against. -/
def ackLiteral : String := "\x7b\"ok\":true\x7d"

/-- An inbound WebSocket message: a text frame (string data) or a binary
frame (arraybuffer data). -/
inductive Msg
  | text (s : String)
  | binary (b : List ℕ)
deriving DecidableEq, Repr

/-- Console events emitted by sock.onmessage: the acknowledgement log line or
the invalid-first-message warning. -/
inductive ChanEvent
  | ackLog (idx : ℕ)
  | warnFirst (idx : ℕ)
deriving DecidableEq, Repr

/-- The per-channel state sock.onmessage closes over: the first flag, the
status ready flag, and the incoming queue. -/
structure ChanState where
  first : Bool
  ready : Bool
  incoming : List Msg
deriving DecidableEq, Repr

/-- Channel state before any message arrives. -/
def initChanState : ChanState := ⟨true, false, []⟩

/-- The sock.onmessage handler for one message on track idx. -/
def sockOnMessage (idx : ℕ) (s : ChanState) (m : Msg) : ChanState × List ChanEvent :=
  if s.first then
    if m = Msg.text ackLiteral then
      ({ s with first := false, ready := true }, [ChanEvent.ackLog idx])
    else (s, [ChanEvent.warnFirst idx])
  else ({ s with incoming := s.incoming ++ [m] }, [])

/-- Run sock.onmessage over a whole inbound message sequence, collecting the
console events. -/
def sockRun (idx : ℕ) : ChanState → List Msg → ChanState × List ChanEvent
  | s, [] => (s, [])
  | s, m :: ms =>
    let r := sockOnMessage idx s m
    let rest := sockRun idx r.1 ms
    (rest.1, r.2 ++ rest.2)

/- ## Decode loop: trackStream.pull -/

/-- A decoded libav frame, keeping the fields the loader reads. -/
structure Frame where
  format : ℕ
  sample_rate : ℕ
  channels : ℕ
  nb_samples : ℕ
deriving DecidableEq, Repr

/-- The libav results of one iteration of the trackStream.pull loop:
whether packets[stream.index] was non-null, whether readRes was AVERROR_EOF,
the ff_decode_multi output, and the ff_filter_multi output. -/
structure DecodeIter where
  hasPackets : Bool
  eof : Bool
  frames : List Frame
  fframes : List Frame
deriving DecidableEq, Repr

/-- The status duration field: false | number (seconds) | true. -/
inductive Dur
  | notLoading
  | loading (d : ℚ)
  | finished
deriving DecidableEq

/-- The filter-graph endpoint parameters passed to ff_init_filter_graph. -/
structure FilterParams where
  sample_rate : ℕ
  sample_fmt : ℕ
  channel_layout : ℕ
deriving DecidableEq, Repr

/-- track.channels === 1 ? 4 : (1 << track.channels) - 1. -/
def channelLayout (channels : ℕ) : ℕ :=
  if channels = 1 then 4 else (1 <<< channels) - 1

/-- State of one track loader across decode iterations: whether the filter
graph has been built (buffersrc_ctx >= 0), the track format fields, the two
filter endpoint parameter sets, the status duration, the frames enqueued to
the controller, and whether the controller was closed. -/
structure TrackState where
  filterBuilt : Bool
  fmt : ℕ
  sampleRate : ℕ
  channels : ℕ
  filterSrc : Option FilterParams
  filterDst : Option FilterParams
  dur : Dur
  emitted : List Frame
  closed : Bool
deriving DecidableEq

/-- Track-loader state before the first decode iteration. -/
def initTrackState : TrackState :=
  ⟨false, 0, 0, 0, none, none, .notLoading, [], false⟩

/-- The lazy filter construction: on the first non-empty decode result, set
track.format, track.sampleRate, track.channels and build the anull filter
graph from the first frame's native parameters. -/
def buildFilter (fromPlanar : ℕ → ℕ) (s : TrackState) (frames : List Frame) : TrackState :=
  match frames with
  | [] => s
  | f :: _ =>
    if s.filterBuilt then s
    else
      { s with
        filterBuilt := true
        fmt := fromPlanar f.format
        sampleRate := f.sample_rate
        channels := f.channels
        filterSrc := some ⟨f.sample_rate, f.format, channelLayout f.channels⟩
        filterDst := some ⟨f.sample_rate, fromPlanar f.format, channelLayout f.channels⟩ }

/-- if (status[sidx].duration === false) status[sidx].duration = 0. -/
def durEnter : Dur → Dur
  | .notLoading => .loading 0
  | d => d

/-- status[sidx].duration += frame.nb_samples / track.sampleRate. -/
def durAdd (rate : ℕ) (d : Dur) (f : Frame) : Dur :=
  match d with
  | .loading q => .loading (q + (f.nb_samples : ℚ) / (rate : ℚ))
  | d => d

/-- The buffersrc_ctx >= 0 block of trackStream.pull: enter Loading if still
false, enqueue the filtered frames while accumulating duration, and mark the
duration true at eof. -/
def emitFrames (s : TrackState) (fframes : List Frame) (eof : Bool) : TrackState :=
  if s.filterBuilt then
    let d1 := fframes.foldl (durAdd s.sampleRate) (durEnter s.dur)
    { s with
      dur := if eof then .finished else d1
      emitted := s.emitted ++ fframes }
  else s

/-- One iteration of the trackStream.pull decode loop. A closed stream is
never pulled again; an iteration with no packets for the stream and no eof
only reads more input (state unchanged); otherwise the filter is lazily
built, the filtered frames are emitted, and eof closes the controller. -/
def trackStreamPull (fromPlanar : ℕ → ℕ) (s : TrackState) (it : DecodeIter) : TrackState :=
  if s.closed then s
  else if !it.hasPackets && !it.eof then s
  else
    let s2 := emitFrames (buildFilter fromPlanar s it.frames) it.fframes it.eof
    if it.eof then { s2 with closed := true } else s2

/-- The decode loop run over a sequence of libav iteration results. -/
def trackStreamRun (fromPlanar : ℕ → ℕ) (s : TrackState) (its : List DecodeIter) : TrackState :=
  its.foldl (trackStreamPull fromPlanar) s

/- ## Scheduler: the loadData loop -/

/-- const threads = Math.min(navigator.hardwareConcurrency || 1, 8). -/
def threads (hardwareConcurrency : ℕ) : ℕ :=
  min (max hardwareConcurrency 1) 8

/-- Result of the inner enqueue loop of loadData: remaining queue, in-flight
promise list, every track started so far, and the successive in-flight sizes
recorded as each loadTrack call is pushed. -/
structure FillState where
  pending : List ℕ
  inFlight : List ℕ
  started : List ℕ
  trace : List ℕ
deriving DecidableEq, Repr

/-- The inner while of loadData: while tracks remain and fewer than tb
promises are in flight, shift the next track and push its loader. -/
def startQueued (tb : ℕ) : List ℕ → List ℕ → List ℕ → FillState
  | [], inFlight, started => ⟨[], inFlight, started, []⟩
  | t :: ts, inFlight, started =>
    if inFlight.length < tb then
      let r := startQueued tb ts (inFlight ++ [t]) (started ++ [t])
      ⟨r.pending, r.inFlight, r.started, (inFlight.length + 1) :: r.trace⟩
    else ⟨t :: ts, inFlight, started, []⟩

/-- How a run of the loadData loop ends: the final Promise.all settled (allOk
records whether it resolved), a raced loader rejected and the await threw
(aborted), or the adversarial completion schedule ran out. -/
inductive SchedStatus
  | completed (allOk : Bool)
  | aborted (failedTrack : ℕ)
  | outOfPicks
deriving DecidableEq, Repr

/-- Scheduler state at the end of a run. -/
structure SchedState where
  pending : List ℕ
  inFlight : List ℕ
  started : List ℕ
deriving DecidableEq, Repr

/-- Result of a run of the loadData loop, with the trace of in-flight counts
at every point where the in-flight set changed. -/
structure SchedResult where
  final : SchedState
  status : SchedStatus
  trace : List ℕ
deriving DecidableEq, Repr

/-- The loadData scheduling loop. outcome says whether a given track's
loadTrack promise resolves (true) or rejects (false); picks is the
adversarial completion order, each entry choosing (mod the in-flight count)
which in-flight promise settles first at the next Promise.race. A rejected
winner makes the race reject, aborting the loop; once the queue is empty,
Promise.all settles with conjunction of the remaining outcomes. -/
def loadDataLoop (tb : ℕ) (outcome : ℕ → Bool) :
    List ℕ → List ℕ → List ℕ → List ℕ → SchedResult
  | _, [], inFlight, started =>
    ⟨⟨[], inFlight, started⟩, .completed (inFlight.all outcome), []⟩
  | [], t :: ts, inFlight, started =>
    let f := startQueued tb (t :: ts) inFlight started
    ⟨⟨f.pending, f.inFlight, f.started⟩, .outOfPicks, f.trace⟩
  | p :: ps, t :: ts, inFlight, started =>
    let f := startQueued tb (t :: ts) inFlight started
    let i := p % f.inFlight.length
    let tr := f.inFlight.getD i 0
    if outcome tr then
      let inFlight2 := f.inFlight.eraseIdx i
      let r := loadDataLoop tb outcome ps f.pending inFlight2 f.started
      ⟨r.final, r.status, f.trace ++ inFlight2.length :: r.trace⟩
    else
      ⟨⟨f.pending, f.inFlight, f.started⟩, .aborted tr, f.trace⟩

/- ## Helper lemmas: byte-level encoding -/

theorem fromLE4_take4 (l : List ℕ) : fromLE4 (l.take 4) = fromLE4 l := by
  rcases l with _ | ⟨a, _ | ⟨b, _ | ⟨c, _ | ⟨d, t⟩⟩⟩⟩ <;> simp [fromLE4, List.getD]

theorem getD_lt_256 {l : List ℕ} (h : ∀ b ∈ l, b < 256) (i : ℕ) : l.getD i 0 < 256 := by
  rcases hx : l[i]? with _ | x
  · simp [List.getD_eq_getElem?_getD, hx]
  · have : x ∈ l := List.getElem?_mem hx
    simpa [List.getD_eq_getElem?_getD, hx] using h x this

theorem fromLE4_lt {l : List ℕ} (h : ∀ b ∈ l, b < 256) : fromLE4 l < 4294967296 := by
  have h0 := getD_lt_256 h 0
  have h1 := getD_lt_256 h 1
  have h2 := getD_lt_256 h 2
  have h3 := getD_lt_256 h 3
  unfold fromLE4
  omega

theorem fromLE4_toLE4 (n : ℕ) : fromLE4 (toLE4 n) = n % 4294967296 := by
  simp [fromLE4, toLE4, List.getD]
  omega

theorem mkAck_length (seq : ℕ) : (mkAck seq).length = 8 := rfl

theorem mkAck_take (seq : ℕ) : (mkAck seq).take 4 = [0, 0, 0, 0] := rfl

theorem mkAck_drop (seq : ℕ) : (mkAck seq).drop 4 = toLE4 seq := rfl

/-- Full characterization of one inStream.pull part-processing step on a part
of length at least 4: the ack is sent exactly when the socket is not closing,
the payload is enqueued exactly when more than 4 bytes arrived, and
sock.close() is called exactly for a terminal frame on an open socket. -/
theorem inStreamPull_eq (w : Bool) (p : List ℕ) (h : 4 ≤ p.length) :
    inStreamPull w p =
      .ok ⟨if w then none else some (mkAck (fromLE4 p)),
        if 4 < p.length then .enqueue (p.drop 4) else .close,
        !w && !decide (4 < p.length)⟩ := by
  cases w <;> by_cases h5 : 4 < p.length <;>
    simp [inStreamPull, getUint32LE, h, h5]

theorem acksOf_length (l : List (Bool × List ℕ)) (h : ∀ e ∈ l, 4 ≤ e.2.length) :
    (acksOf l).length = (l.filter fun e => !e.1).length := by
  induction l with
  | nil => rfl
  | cons e t ih =>
    obtain ⟨w, p⟩ := e
    have he : 4 ≤ p.length := h (w, p) (List.mem_cons_self _ _)
    have ht := fun x hx => h x (List.mem_cons_of_mem _ hx)
    cases w <;> simp [acksOf, inStreamPull_eq _ p he, List.filter_cons] <;>
      simpa [acksOf] using ih ht

/- ## Claim theorems: wire protocol -/

/-- C7 (confirmed): every acknowledgement frame sent is exactly 8 bytes,
bytes 0..4 are zero, and bytes 4..8 hold, little-endian, the sequence number
read little-endian from the first 4 bytes of the acknowledged chunk frame. -/
theorem C7_ack_layout (wsClosed : Bool) (part : List ℕ) (h4 : 4 ≤ part.length)
    (hb : ∀ b ∈ part, b < 256) (hw : wsClosed = false) :
    ∃ seq, getUint32LE part = some seq ∧ seq = fromLE4 (part.take 4) ∧
      ∃ st, inStreamPull wsClosed part = .ok st ∧ st.ack = some (mkAck seq) ∧
        (mkAck seq).length = 8 ∧ (mkAck seq).take 4 = [0, 0, 0, 0] ∧
        fromLE4 ((mkAck seq).drop 4) = seq := by
  subst hw
  refine ⟨fromLE4 part, by simp [getUint32LE, h4], (fromLE4_take4 part).symm,
    _, inStreamPull_eq false part h4, rfl, rfl, rfl, ?_⟩
  rw [mkAck_drop, fromLE4_toLE4, Nat.mod_eq_of_lt (fromLE4_lt hb)]

/-- Witness for C7 at the concrete 5-byte chunk frame 01 02 03 04 05. -/
theorem C7_witness :
    ∃ seq, getUint32LE [1, 2, 3, 4, 5] = some seq ∧
      seq = fromLE4 ([1, 2, 3, 4, 5].take 4) ∧
      ∃ st, inStreamPull false [1, 2, 3, 4, 5] = .ok st ∧ st.ack = some (mkAck seq) ∧
        (mkAck seq).length = 8 ∧ (mkAck seq).take 4 = [0, 0, 0, 0] ∧
        fromLE4 ((mkAck seq).drop 4) = seq :=
  C7_ack_layout false [1, 2, 3, 4, 5] (by decide) (by decide) rfl

/-- C10 (confirmed): every inbound frame of total length at most 4 bytes, not
only exactly 4, is treated as terminal when it processes successfully;
moreover the 4-byte sequence read happens before the length check, so a frame
shorter than 4 bytes on an open socket makes the pull fail with an
out-of-bounds read instead of closing cleanly, while a 4-byte terminal frame
on an open socket is itself acknowledged and closes stream and socket. -/
theorem C10_short_frames :
    (∀ w p st, inStreamPull w p = .ok st → (st.action = PartAction.close ↔ p.length ≤ 4)) ∧
    (∀ p : List ℕ, p.length < 4 → inStreamPull false p = .error ()) ∧
    (∀ p : List ℕ, p.length = 4 →
      inStreamPull false p = .ok ⟨some (mkAck (fromLE4 p)), .close, true⟩) ∧
    (∀ p : List ℕ, p.length ≤ 4 → inStreamPull true p = .ok ⟨none, .close, false⟩) := by
  refine ⟨?_, ?_, ?_, ?_⟩
  · intro w p st hst
    cases w
    · by_cases h : 4 ≤ p.length
      · rw [inStreamPull_eq false p h] at hst
        injection hst with hst
        subst hst
        by_cases h5 : 4 < p.length
        · simp [h5]
        · simp [h5]
          omega
      · simp [inStreamPull, getUint32LE, h] at hst
    · by_cases h5 : 4 < p.length <;>
        (simp [inStreamPull, h5] at hst; subst hst; simp; omega)
  · intro p hp
    have h4 : ¬4 ≤ p.length := by omega
    simp [inStreamPull, getUint32LE, h4]
  · intro p hp
    rw [inStreamPull_eq false p (by omega)]
    have h5 : ¬4 < p.length := by omega
    simp [h5]
  · intro p hp
    have h5 : ¬4 < p.length := by omega
    simp [inStreamPull, h5]

/-- Witness for C10: a 2-byte frame errors on an open socket but closes
cleanly on a closing socket; a 4-byte frame is acked and terminal. -/
theorem C10_witness :
    inStreamPull false [7, 9] = .error () ∧
    inStreamPull true [7, 9] = .ok ⟨none, .close, false⟩ ∧
    inStreamPull false [1, 0, 0, 0] = .ok ⟨some (mkAck 1), .close, true⟩ :=
  ⟨C10_short_frames.2.1 [7, 9] (by decide),
   C10_short_frames.2.2.2 [7, 9] (by decide),
   C10_short_frames.2.2.1 [1, 0, 0, 0] rfl⟩

/-- C6 (confirmed): over any trace of accepted chunk frames, each frame
processed while the socket is not closing is answered by exactly one
acknowledgement carrying the sequence number read from its first 4 bytes,
frames processed while the socket is closing are not acknowledged, and the
number of acknowledgements sent equals the number of frames processed while
the socket was not closing. -/
theorem C6_ack_count (l : List (Bool × List ℕ)) (h : ∀ e ∈ l, 4 ≤ e.2.length) :
    (acksOf l).length = (l.filter fun e => !e.1).length ∧
    ∀ w p, (w, p) ∈ l →
      inStreamPull w p =
        .ok ⟨if w then none else some (mkAck (fromLE4 p)),
          if 4 < p.length then .enqueue (p.drop 4) else .close,
          !w && !decide (4 < p.length)⟩ :=
  ⟨acksOf_length l h, fun w p hm => inStreamPull_eq w p (h (w, p) hm)⟩

/-- Witness for C6 at a two-frame trace: one frame on an open socket, one on
a closing socket. -/
theorem C6_witness :
    (acksOf [(false, [0, 0, 0, 0, 7]), (true, [1, 0, 0, 0, 2])]).length =
      ([(false, [0, 0, 0, 0, 7]), (true, [1, 0, 0, 0, 2])].filter fun e => !e.1).length ∧
    inStreamPull true [1, 0, 0, 0, 2] =
      .ok ⟨if true then none else some (mkAck (fromLE4 [1, 0, 0, 0, 2])),
        if 4 < ([1, 0, 0, 0, 2] : List ℕ).length then .enqueue ([1, 0, 0, 0, 2].drop 4)
          else .close,
        !true && !decide (4 < ([1, 0, 0, 0, 2] : List ℕ).length)⟩ :=
  ⟨(C6_ack_count [(false, [0, 0, 0, 0, 7]), (true, [1, 0, 0, 0, 2])] (by decide)).1,
   (C6_ack_count [(false, [0, 0, 0, 0, 7]), (true, [1, 0, 0, 0, 2])] (by decide)).2
     true [1, 0, 0, 0, 2] (by decide)⟩

/- ## Helper lemmas and claim theorems: handshake -/

/-- While the first flag is still set, every message that is not the success
literal leaves the channel state entirely unchanged and only logs the
invalid-first-message warning. -/
theorem sockRun_invalid (idx : ℕ) (s : ChanState) (msgs : List Msg)
    (hf : s.first = true) (h : ∀ m ∈ msgs, m ≠ Msg.text ackLiteral) :
    sockRun idx s msgs = (s, msgs.map fun _ => ChanEvent.warnFirst idx) := by
  induction msgs with
  | nil => rfl
  | cons m ms ih =>
    have hm : ¬m = Msg.text ackLiteral := h m (List.mem_cons_self _ _)
    have hms := fun x hx => h x (List.mem_cons_of_mem _ hx)
    simp [sockRun, sockOnMessage, hf, hm, ih hms]

/-- C5 (counterexample): after an invalid first message, a following binary
chunk message is not pushed to the chunk queue — incoming stays empty and the
handler still treats the channel as awaiting its first message. -/
theorem C5_counterexample :
    (sockRun 2 initChanState [Msg.text "garbage", Msg.binary [0, 0, 0, 0, 1]]).1.incoming
        = [] ∧
    (sockRun 2 initChanState [Msg.text "garbage", Msg.binary [0, 0, 0, 0, 1]]).1.first
        = true ∧
    (sockRun 2 initChanState [Msg.text "garbage", Msg.binary [0, 0, 0, 0, 1]]).2
        = [ChanEvent.warnFirst 2, ChanEvent.warnFirst 2] := by
  decide

/-- C5 (corrected): after an invalid first message, subsequent inbound
messages that are not the success literal are not consumed as chunk data:
each is re-checked as a handshake candidate and discarded with a warning, so
nothing is ever pushed to the chunk queue and the ready flag never flips. -/
theorem C5_amended (idx : ℕ) (msgs : List Msg)
    (h : ∀ m ∈ msgs, m ≠ Msg.text ackLiteral) :
    (sockRun idx initChanState msgs).1.incoming = [] ∧
    (sockRun idx initChanState msgs).1.first = true ∧
    (sockRun idx initChanState msgs).1.ready = false ∧
    (sockRun idx initChanState msgs).2 = msgs.map fun _ => ChanEvent.warnFirst idx := by
  rw [sockRun_invalid idx initChanState msgs rfl h]
  exact ⟨rfl, rfl, rfl, rfl⟩

/-- Witness for C5 at a concrete two-message sequence. -/
theorem C5_witness :
    (sockRun 3 initChanState [Msg.text "x", Msg.binary [1]]).1.incoming = [] ∧
    (sockRun 3 initChanState [Msg.text "x", Msg.binary [1]]).1.first = true ∧
    (sockRun 3 initChanState [Msg.text "x", Msg.binary [1]]).1.ready = false ∧
    (sockRun 3 initChanState [Msg.text "x", Msg.binary [1]]).2 =
      [Msg.text "x", Msg.binary [1]].map fun _ => ChanEvent.warnFirst 3 :=
  C5_amended 3 [Msg.text "x", Msg.binary [1]] (by decide)

/-- C4 (code bug): when the first inbound message on track 2's channel is not
the success marker, the handler merely logs a warning and leaves the channel
state untouched — the ready flag never flips, no message is ever consumed,
and no failure of any kind is raised or recorded, so the track never reports
a ProtocolError and never finishes. -/
theorem C4_bad_handshake_only_warns :
    (sockRun 2 initChanState
        [Msg.text "garbled", Msg.binary [1, 0, 0, 0, 9], Msg.binary [2, 0, 0, 0]]).1 =
      ⟨true, false, []⟩ ∧
    (sockRun 2 initChanState
        [Msg.text "garbled", Msg.binary [1, 0, 0, 0, 9], Msg.binary [2, 0, 0, 0]]).2 =
      [ChanEvent.warnFirst 2, ChanEvent.warnFirst 2, ChanEvent.warnFirst 2] := by
  decide

/- ## Helper lemmas: decode loop -/

theorem buildFilter_dur (fromPlanar : ℕ → ℕ) (s : TrackState) (l : List Frame) :
    (buildFilter fromPlanar s l).dur = s.dur := by
  cases l with
  | nil => rfl
  | cons f fs => by_cases hfb : s.filterBuilt = true <;> simp [buildFilter, hfb]

theorem buildFilter_built (fromPlanar : ℕ → ℕ) (s : TrackState) (l : List Frame)
    (h : s.filterBuilt = true) : buildFilter fromPlanar s l = s := by
  cases l <;> simp [buildFilter, h]

theorem emitFrames_fields (s : TrackState) (ff : List Frame) (eof : Bool) :
    (emitFrames s ff eof).filterBuilt = s.filterBuilt ∧
    (emitFrames s ff eof).fmt = s.fmt ∧
    (emitFrames s ff eof).sampleRate = s.sampleRate ∧
    (emitFrames s ff eof).channels = s.channels ∧
    (emitFrames s ff eof).filterSrc = s.filterSrc ∧
    (emitFrames s ff eof).filterDst = s.filterDst ∧
    (emitFrames s ff eof).closed = s.closed := by
  by_cases hfb : s.filterBuilt = true <;> simp [emitFrames, hfb]

theorem trackStreamPull_main (fromPlanar : ℕ → ℕ) (s : TrackState) (it : DecodeIter)
    (hc : s.closed = false) (hm : (it.hasPackets || it.eof) = true) :
    trackStreamPull fromPlanar s it =
      if it.eof then
        { emitFrames (buildFilter fromPlanar s it.frames) it.fframes it.eof with
            closed := true }
      else emitFrames (buildFilter fromPlanar s it.frames) it.fframes it.eof := by
  have hsk : (!it.hasPackets && !it.eof) = false := by
    cases hP : it.hasPackets <;> cases hE : it.eof <;> simp_all
  simp [trackStreamPull, hc, hsk]

theorem trackStreamPull_no_frames (fromPlanar : ℕ → ℕ) (s : TrackState) (it : DecodeIter)
    (hb : s.filterBuilt = false) (hf : it.frames = []) :
    trackStreamPull fromPlanar s it = { s with closed := s.closed || it.eof } := by
  obtain ⟨fb, fmt, sr, ch, fsrc, fdst, dur, em, cl⟩ := s
  simp only [TrackState.mk.injEq] at hb ⊢
  cases hb
  cases cl <;> cases hE : it.eof <;> cases hP : it.hasPackets <;>
    simp [trackStreamPull, buildFilter, emitFrames, hf, hE, hP]

theorem trackStreamRun_no_frames (fromPlanar : ℕ → ℕ) (its : List DecodeIter)
    (s : TrackState) (hb : s.filterBuilt = false) (hf : ∀ it ∈ its, it.frames = []) :
    trackStreamRun fromPlanar s its =
      { s with closed := s.closed || its.any fun it => it.eof } := by
  induction its generalizing s with
  | nil =>
    obtain ⟨fb, fmt, sr, ch, fsrc, fdst, dur, em, cl⟩ := s
    simp [trackStreamRun]
  | cons it ts ih =>
    have hstep := trackStreamPull_no_frames fromPlanar s it hb (hf it (List.mem_cons_self _ _))
    have ihs := ih { s with closed := s.closed || it.eof } hb
      (fun x hx => hf x (List.mem_cons_of_mem _ hx))
    calc trackStreamRun fromPlanar s (it :: ts)
        = trackStreamRun fromPlanar (trackStreamPull fromPlanar s it) ts := rfl
      _ = trackStreamRun fromPlanar { s with closed := s.closed || it.eof } ts := by
          rw [hstep]
      _ = _ := by rw [ihs]; simp [Bool.or_assoc]

theorem foldl_durAdd_loading (rate : ℕ) (l : List Frame) (a : ℚ) :
    ∃ b, l.foldl (durAdd rate) (Dur.loading a) = Dur.loading b ∧ a ≤ b := by
  induction l generalizing a with
  | nil => exact ⟨a, rfl, le_refl a⟩
  | cons f fs ih =>
    obtain ⟨b, hb, hab⟩ := ih (a + (f.nb_samples : ℚ) / (rate : ℚ))
    refine ⟨b, by simpa [durAdd] using hb, ?_⟩
    have hnn : (0 : ℚ) ≤ (f.nb_samples : ℚ) / (rate : ℚ) := by positivity
    linarith

theorem foldl_durAdd_finished (rate : ℕ) (l : List Frame) :
    l.foldl (durAdd rate) Dur.finished = Dur.finished := by
  induction l with
  | nil => rfl
  | cons f fs ih => simpa [durAdd] using ih

theorem emitFrames_dur (s : TrackState) (ff : List Frame) (eof : Bool) :
    (emitFrames s ff eof).dur = s.dur ∨
    (emitFrames s ff eof).dur = Dur.finished ∨
    ∃ b, (emitFrames s ff eof).dur = Dur.loading b ∧
      ((∃ a, s.dur = Dur.loading a ∧ a ≤ b) ∨ (s.dur = Dur.notLoading ∧ 0 ≤ b)) := by
  by_cases hfb : s.filterBuilt = true
  · by_cases he : eof = true
    · right; left; simp [emitFrames, hfb, he]
    · rcases hd : s.dur with _ | a | _
      · obtain ⟨b, hb, h0b⟩ := foldl_durAdd_loading s.sampleRate ff 0
        right; right
        exact ⟨b, by simp [emitFrames, hfb, he, hd, durEnter, hb], Or.inr ⟨rfl, h0b⟩⟩
      · obtain ⟨b, hb, hab⟩ := foldl_durAdd_loading s.sampleRate ff a
        right; right
        exact ⟨b, by simp [emitFrames, hfb, he, hd, durEnter, hb], Or.inl ⟨a, rfl, hab⟩⟩
      · right; left
        simp [emitFrames, hfb, he, hd, durEnter, foldl_durAdd_finished]
  · left; simp [emitFrames, hfb]

theorem trackStreamPull_dur_cases (fromPlanar : ℕ → ℕ) (s : TrackState) (it : DecodeIter) :
    (trackStreamPull fromPlanar s it).dur = s.dur ∨
    (trackStreamPull fromPlanar s it).dur = Dur.finished ∨
    ∃ b, (trackStreamPull fromPlanar s it).dur = Dur.loading b ∧
      ((∃ a, s.dur = Dur.loading a ∧ a ≤ b) ∨ (s.dur = Dur.notLoading ∧ 0 ≤ b)) := by
  by_cases hc : s.closed = true
  · left; simp [trackStreamPull, hc]
  · by_cases hsk : (!it.hasPackets && !it.eof) = true
    · left; simp [trackStreamPull, hc, hsk]
    · have hdur : (trackStreamPull fromPlanar s it).dur =
          (emitFrames (buildFilter fromPlanar s it.frames) it.fframes it.eof).dur := by
        by_cases he : it.eof = true
        · simp [trackStreamPull, hc, hsk, he]
        · have hP : it.hasPackets = true := by
            cases hP : it.hasPackets <;> simp_all
          simp [trackStreamPull, hc, hsk, he, hP]
      have hmain := emitFrames_dur (buildFilter fromPlanar s it.frames) it.fframes it.eof
      rw [buildFilter_dur] at hmain
      rw [hdur]
      exact hmain

/- ## Claim theorems: decode loop -/

/-- C2 (counterexample): when the very first chunk frame carries no payload,
the decode loop sees eof with no decoded frame, closes the stream without
error and without emitting anything, but the progress duration is still
notLoading at the end — it is never set, so the final status is not
Finished. -/
theorem C2_counterexample :
    (trackStreamRun (fun n => n) initTrackState [⟨false, true, [], []⟩]).closed = true ∧
    (trackStreamRun (fun n => n) initTrackState [⟨false, true, [], []⟩]).emitted = [] ∧
    (trackStreamRun (fun n => n) initTrackState [⟨false, true, [], []⟩]).dur =
      Dur.notLoading ∧
    (trackStreamRun (fun n => n) initTrackState [⟨false, true, [], []⟩]).dur ≠
      Dur.finished := by
  decide

/-- C2 (corrected): on a track whose decode calls never produce a frame, the
decode loop reaches end-of-input without emitting any decoded frame and
closes the stream without error, but the progress duration remains
notLoading forever — the Finished transition is guarded by the filter stage
having been built, which requires at least one decoded frame. -/
theorem C2_amended (fromPlanar : ℕ → ℕ) (its : List DecodeIter)
    (hf : ∀ it ∈ its, it.frames = []) :
    (trackStreamRun fromPlanar initTrackState its).emitted = [] ∧
    (trackStreamRun fromPlanar initTrackState its).filterBuilt = false ∧
    (trackStreamRun fromPlanar initTrackState its).dur = Dur.notLoading ∧
    ((trackStreamRun fromPlanar initTrackState its).closed = true ↔
      ∃ it ∈ its, it.eof = true) := by
  rw [trackStreamRun_no_frames fromPlanar its initTrackState rfl hf]
  refine ⟨rfl, rfl, rfl, ?_⟩
  simp [initTrackState, List.any_eq_true]

/-- Witness for C2 at a two-iteration run: one empty non-eof read, then eof. -/
theorem C2_witness :
    (trackStreamRun (fun n => n + 1) initTrackState
        [⟨true, false, [], []⟩, ⟨false, true, [], []⟩]).emitted = [] ∧
    (trackStreamRun (fun n => n + 1) initTrackState
        [⟨true, false, [], []⟩, ⟨false, true, [], []⟩]).filterBuilt = false ∧
    (trackStreamRun (fun n => n + 1) initTrackState
        [⟨true, false, [], []⟩, ⟨false, true, [], []⟩]).dur = Dur.notLoading ∧
    ((trackStreamRun (fun n => n + 1) initTrackState
        [⟨true, false, [], []⟩, ⟨false, true, [], []⟩]).closed = true ↔
      ∃ it ∈ [(⟨true, false, [], []⟩ : DecodeIter), ⟨false, true, [], []⟩],
        it.eof = true) :=
  C2_amended (fun n => n + 1) [⟨true, false, [], []⟩, ⟨false, true, [], []⟩] (by decide)

/-- C8 (confirmed): the duration is exactly 0 at the transition from
notLoading into Loading, each decoded frame adds the non-negative quantity
nb_samples / sampleRate, and across any decode iteration the duration is
monotonically non-decreasing while the track stays in Loading state. -/
theorem C8_duration (fromPlanar : ℕ → ℕ) :
    durEnter Dur.notLoading = Dur.loading 0 ∧
    (∀ rate f a b, durAdd rate (Dur.loading a) f = Dur.loading b → a ≤ b) ∧
    (∀ s it a b, s.dur = Dur.loading a →
      (trackStreamPull fromPlanar s it).dur = Dur.loading b → a ≤ b) ∧
    (∀ s it b, s.dur = Dur.notLoading →
      (trackStreamPull fromPlanar s it).dur = Dur.loading b → 0 ≤ b) := by
  refine ⟨rfl, ?_, ?_, ?_⟩
  · intro rate f a b h
    simp only [durAdd, Dur.loading.injEq] at h
    have hnn : (0 : ℚ) ≤ (f.nb_samples : ℚ) / (rate : ℚ) := by positivity
    linarith
  · intro s it a b hs hp
    rcases trackStreamPull_dur_cases fromPlanar s it with h | h | ⟨c, hc1, hc2⟩
    · rw [hp, hs] at h
      injection h with h
      exact le_of_eq h.symm
    · rw [hp] at h
      simp at h
    · rw [hp] at hc1
      injection hc1 with hc1
      subst hc1
      rcases hc2 with ⟨a2, ha2, hle⟩ | ⟨hnl, _⟩
      · rw [hs] at ha2
        injection ha2 with ha2
        exact ha2 ▸ hle
      · rw [hs] at hnl
        simp at hnl
  · intro s it b hs hp
    rcases trackStreamPull_dur_cases fromPlanar s it with h | h | ⟨c, hc1, hc2⟩
    · rw [hp, hs] at h
      simp at h
    · rw [hp] at h
      simp at h
    · rw [hp] at hc1
      injection hc1 with hc1
      subst hc1
      rcases hc2 with ⟨a2, ha2, _⟩ | ⟨_, h0⟩
      · rw [hs] at ha2
        simp at ha2
      · exact h0

/-- Witness for C8: one iteration adding a 4-sample frame at rate 2 takes the
duration from 1 to 3 seconds, and 1 is at most 3. -/
theorem C8_witness : (1 : ℚ) ≤ 3 :=
  (C8_duration (fun n => n)).2.2.1
    ⟨true, 0, 2, 1, none, none, Dur.loading 1, [], false⟩
    ⟨true, false, [], [⟨0, 2, 1, 4⟩]⟩ 1 3 rfl
    (by simp [trackStreamPull, emitFrames, buildFilter, durEnter, durAdd]; norm_num)

/-- C9 (confirmed): the track's format parameters are set exactly once, from
the first frame of the first non-empty decode result, and are never changed
afterwards; the filter graph built at that moment has identical source and
destination sample rate and channel layout and differs only in the sample
format, the destination being the non-planar image of the source. -/
theorem C9_format_params (fromPlanar : ℕ → ℕ) (s : TrackState) (it : DecodeIter) :
    (∀ f fs, s.closed = false → (it.hasPackets || it.eof) = true →
      s.filterBuilt = false → it.frames = f :: fs →
      ((trackStreamPull fromPlanar s it).filterBuilt = true ∧
       (trackStreamPull fromPlanar s it).fmt = fromPlanar f.format ∧
       (trackStreamPull fromPlanar s it).sampleRate = f.sample_rate ∧
       (trackStreamPull fromPlanar s it).channels = f.channels ∧
       (trackStreamPull fromPlanar s it).filterSrc =
         some ⟨f.sample_rate, f.format, channelLayout f.channels⟩ ∧
       (trackStreamPull fromPlanar s it).filterDst =
         some ⟨f.sample_rate, fromPlanar f.format, channelLayout f.channels⟩ ∧
       ∃ src dst, (trackStreamPull fromPlanar s it).filterSrc = some src ∧
         (trackStreamPull fromPlanar s it).filterDst = some dst ∧
         dst.sample_rate = src.sample_rate ∧
         dst.channel_layout = src.channel_layout ∧
         dst.sample_fmt = fromPlanar src.sample_fmt)) ∧
    (s.filterBuilt = true →
      ((trackStreamPull fromPlanar s it).filterBuilt = true ∧
       (trackStreamPull fromPlanar s it).fmt = s.fmt ∧
       (trackStreamPull fromPlanar s it).sampleRate = s.sampleRate ∧
       (trackStreamPull fromPlanar s it).channels = s.channels ∧
       (trackStreamPull fromPlanar s it).filterSrc = s.filterSrc ∧
       (trackStreamPull fromPlanar s it).filterDst = s.filterDst)) ∧
    (s.filterBuilt = false → it.frames = [] →
      ((trackStreamPull fromPlanar s it).filterBuilt = false ∧
       (trackStreamPull fromPlanar s it).fmt = s.fmt ∧
       (trackStreamPull fromPlanar s it).sampleRate = s.sampleRate ∧
       (trackStreamPull fromPlanar s it).channels = s.channels ∧
       (trackStreamPull fromPlanar s it).filterSrc = s.filterSrc ∧
       (trackStreamPull fromPlanar s it).filterDst = s.filterDst)) := by
  refine ⟨?_, ?_, ?_⟩
  · intro f fs hc hm hfb hfr
    rw [trackStreamPull_main fromPlanar s it hc hm, hfr]
    have hbf : buildFilter fromPlanar s (f :: fs) =
        { s with
          filterBuilt := true
          fmt := fromPlanar f.format
          sampleRate := f.sample_rate
          channels := f.channels
          filterSrc := some ⟨f.sample_rate, f.format, channelLayout f.channels⟩
          filterDst := some ⟨f.sample_rate, fromPlanar f.format, channelLayout f.channels⟩ } := by
      simp [buildFilter, hfb]
    have hef := emitFrames_fields (buildFilter fromPlanar s (f :: fs)) it.fframes it.eof
    by_cases he : it.eof = true <;> simp_all
  · intro hfb
    by_cases hc : s.closed = true
    · simp [trackStreamPull, hc, hfb]
    · by_cases hsk : (!it.hasPackets && !it.eof) = true
      · simp [trackStreamPull, hc, hsk, hfb]
      · have hm : (it.hasPackets || it.eof) = true := by
          cases hP : it.hasPackets <;> cases hE : it.eof <;> simp_all
        rw [trackStreamPull_main fromPlanar s it (by simp_all) hm,
          buildFilter_built fromPlanar s it.frames hfb]
        have hef := emitFrames_fields s it.fframes it.eof
        by_cases he : it.eof = true <;> simp_all
  · intro hfb hfr
    rw [trackStreamPull_no_frames fromPlanar s it hfb hfr]
    exact ⟨hfb, rfl, rfl, rfl, rfl, rfl⟩

/-- Witness for C9: the first non-empty decode result, a stereo 48 kHz frame
in format 8, fixes the track parameters and a filter pair differing only in
sample format. -/
theorem C9_witness :
    (trackStreamPull (fun n => n % 5) initTrackState
        ⟨true, false, [⟨8, 48000, 2, 100⟩], []⟩).filterBuilt = true ∧
    (trackStreamPull (fun n => n % 5) initTrackState
        ⟨true, false, [⟨8, 48000, 2, 100⟩], []⟩).fmt = (fun n => n % 5) 8 ∧
    (trackStreamPull (fun n => n % 5) initTrackState
        ⟨true, false, [⟨8, 48000, 2, 100⟩], []⟩).sampleRate = 48000 ∧
    (trackStreamPull (fun n => n % 5) initTrackState
        ⟨true, false, [⟨8, 48000, 2, 100⟩], []⟩).channels = 2 ∧
    (trackStreamPull (fun n => n % 5) initTrackState
        ⟨true, false, [⟨8, 48000, 2, 100⟩], []⟩).filterSrc =
      some ⟨48000, 8, channelLayout 2⟩ ∧
    (trackStreamPull (fun n => n % 5) initTrackState
        ⟨true, false, [⟨8, 48000, 2, 100⟩], []⟩).filterDst =
      some ⟨48000, (fun n => n % 5) 8, channelLayout 2⟩ ∧
    ∃ src dst,
      (trackStreamPull (fun n => n % 5) initTrackState
          ⟨true, false, [⟨8, 48000, 2, 100⟩], []⟩).filterSrc = some src ∧
      (trackStreamPull (fun n => n % 5) initTrackState
          ⟨true, false, [⟨8, 48000, 2, 100⟩], []⟩).filterDst = some dst ∧
      dst.sample_rate = src.sample_rate ∧
      dst.channel_layout = src.channel_layout ∧
      dst.sample_fmt = (fun n => n % 5) src.sample_fmt :=
  (C9_format_params (fun n => n % 5) initTrackState
      ⟨true, false, [⟨8, 48000, 2, 100⟩], []⟩).1
    ⟨8, 48000, 2, 100⟩ [] rfl rfl rfl rfl

/- ## Helper lemmas: scheduler -/

theorem startQueued_concat (tb : ℕ) (p f st : List ℕ) :
    (startQueued tb p f st).started ++ (startQueued tb p f st).pending = st ++ p := by
  induction p generalizing f st with
  | nil => simp [startQueued]
  | cons t ts ih =>
    by_cases h : f.length < tb
    · simp only [startQueued, if_pos h]
      rw [ih]
      simp
    · simp [startQueued, h]

theorem startQueued_inFlight_le (tb : ℕ) (p f st : List ℕ) (h : f.length ≤ tb) :
    (startQueued tb p f st).inFlight.length ≤ tb := by
  induction p generalizing f st with
  | nil => simpa [startQueued] using h
  | cons t ts ih =>
    by_cases hlt : f.length < tb
    · simp only [startQueued, if_pos hlt]
      exact ih (f ++ [t]) (st ++ [t]) (by simp; omega)
    · simpa [startQueued, hlt] using h

theorem startQueued_trace_le (tb : ℕ) (p f st : List ℕ) (h : f.length ≤ tb) :
    ∀ x ∈ (startQueued tb p f st).trace, x ≤ tb := by
  induction p generalizing f st with
  | nil => simp [startQueued]
  | cons t ts ih =>
    by_cases hlt : f.length < tb
    · simp only [startQueued, if_pos hlt]
      intro x hx
      rcases List.mem_cons.mp hx with hx | hx
      · omega
      · exact ih (f ++ [t]) (st ++ [t]) (by simp; omega) x hx
    · simp [startQueued, hlt]

theorem startQueued_pending_le (tb : ℕ) (p f st : List ℕ) :
    (startQueued tb p f st).pending.length ≤ p.length := by
  induction p generalizing f st with
  | nil => simp [startQueued]
  | cons t ts ih =>
    by_cases hlt : f.length < tb
    · simp only [startQueued, if_pos hlt]
      exact le_trans (ih _ _) (by simp)
    · simp [startQueued, hlt]

theorem startQueued_pending_lt (tb : ℕ) (t : ℕ) (ts f st : List ℕ) (h : f.length < tb) :
    (startQueued tb (t :: ts) f st).pending.length < (t :: ts).length := by
  simp only [startQueued, if_pos h]
  exact lt_of_le_of_lt (startQueued_pending_le tb ts _ _) (by simp)

theorem startQueued_inFlight_ge (tb : ℕ) (p f st : List ℕ) :
    f.length ≤ (startQueued tb p f st).inFlight.length := by
  induction p generalizing f st with
  | nil => simp [startQueued]
  | cons t ts ih =>
    by_cases hlt : f.length < tb
    · simp only [startQueued, if_pos hlt]
      have := ih (f ++ [t]) (st ++ [t])
      simp at this
      omega
    · simp [startQueued, hlt]

theorem startQueued_inFlight_pos (tb : ℕ) (t : ℕ) (ts f st : List ℕ) (h : f.length < tb) :
    0 < (startQueued tb (t :: ts) f st).inFlight.length := by
  simp only [startQueued, if_pos h]
  have := startQueued_inFlight_ge tb ts (f ++ [t]) (st ++ [t])
  simp at this
  omega

theorem startQueued_replace (tb : ℕ) (t : ℕ) (ts f st : List ℕ) (h : f.length + 1 = tb) :
    startQueued tb (t :: ts) f st = ⟨ts, f ++ [t], st ++ [t], [tb]⟩ := by
  have hlt : f.length < tb := by omega
  cases ts with
  | nil => simp [startQueued, hlt, h]
  | cons u us =>
    have hnlt : ¬(f ++ [t]).length < tb := by simp; omega
    simp [startQueued, hlt, hnlt, h]

theorem loadDataLoop_concat (tb : ℕ) (outcome : ℕ → Bool)
    (picks pending inFlight started : List ℕ) :
    (loadDataLoop tb outcome picks pending inFlight started).final.started ++
      (loadDataLoop tb outcome picks pending inFlight started).final.pending =
      started ++ pending := by
  induction picks generalizing pending inFlight started with
  | nil =>
    cases pending with
    | nil => simp [loadDataLoop]
    | cons t ts =>
      simp only [loadDataLoop]
      exact startQueued_concat tb (t :: ts) inFlight started
  | cons p ps ih =>
    cases pending with
    | nil => simp [loadDataLoop]
    | cons t ts =>
      simp only [loadDataLoop]
      split
      · exact (ih _ _ _).trans (startQueued_concat tb (t :: ts) inFlight started)
      · exact startQueued_concat tb (t :: ts) inFlight started

theorem loadDataLoop_trace_le (tb : ℕ) (outcome : ℕ → Bool)
    (picks pending inFlight started : List ℕ) (h : inFlight.length ≤ tb) :
    ∀ x ∈ (loadDataLoop tb outcome picks pending inFlight started).trace, x ≤ tb := by
  induction picks generalizing pending inFlight started with
  | nil =>
    cases pending with
    | nil => simp [loadDataLoop]
    | cons t ts =>
      simp only [loadDataLoop]
      exact startQueued_trace_le tb (t :: ts) inFlight started h
  | cons p ps ih =>
    cases pending with
    | nil => simp [loadDataLoop]
    | cons t ts =>
      simp only [loadDataLoop]
      have hle := startQueued_inFlight_le tb (t :: ts) inFlight started h
      have herase :
          ((startQueued tb (t :: ts) inFlight started).inFlight.eraseIdx
            (p % (startQueued tb (t :: ts) inFlight started).inFlight.length)).length ≤ tb :=
        le_trans (List.length_eraseIdx_le _ _) hle
      split
      · intro x hx
        rcases List.mem_append.mp hx with hx | hx
        · exact startQueued_trace_le tb (t :: ts) inFlight started h x hx
        · rcases List.mem_cons.mp hx with hx | hx
          · exact hx ▸ herase
          · exact ih _ _ _ herase x hx
      · exact startQueued_trace_le tb (t :: ts) inFlight started h

theorem loadDataLoop_complete (tb : ℕ) (outcome : ℕ → Bool)
    (hall : ∀ t, outcome t = true) (picks : List ℕ) :
    ∀ pending inFlight started, 0 < tb → inFlight.length < tb →
      pending.length ≤ picks.length →
      (loadDataLoop tb outcome picks pending inFlight started).status =
        SchedStatus.completed true ∧
      (loadDataLoop tb outcome picks pending inFlight started).final.pending = [] := by
  induction picks with
  | nil =>
    intro pending inFlight started htb hif hlen
    have hp : pending = [] := List.eq_nil_of_length_eq_zero (by simpa using hlen)
    subst hp
    simp [loadDataLoop, List.all_eq_true]
    intro x _
    exact hall x
  | cons p ps ih =>
    intro pending inFlight started htb hif hlen
    cases pending with
    | nil =>
      simp [loadDataLoop, List.all_eq_true]
      intro x _
      exact hall x
    | cons t ts =>
      simp only [loadDataLoop]
      rw [if_pos (hall _)]
      have hpos := startQueued_inFlight_pos tb t ts inFlight started hif
      have hle := startQueued_inFlight_le tb (t :: ts) inFlight started (le_of_lt hif)
      have hplt := startQueued_pending_lt tb t ts inFlight started hif
      refine ih _ _ _ htb ?_ ?_
      · rw [List.length_eraseIdx_of_lt (Nat.mod_lt _ hpos)]
        omega
      · simp only [List.length_cons] at hlen hplt
        omega

/- ## Claim theorems: scheduler -/

/-- C1 (counterexample): with two workers and tracks 1, 2, 3, when track 1's
loader rejects first, the race rejects and the loadData loop aborts: track 3
is never attempted and no set of per-track failures is returned. -/
theorem C1_counterexample :
    (loadDataLoop 2 (fun t => decide (t ≠ 1)) [0] [1, 2, 3] [] []).status =
      SchedStatus.aborted 1 ∧
    (loadDataLoop 2 (fun t => decide (t ≠ 1)) [0] [1, 2, 3] [] []).final.started =
      [1, 2] ∧
    3 ∉ (loadDataLoop 2 (fun t => decide (t ≠ 1)) [0] [1, 2, 3] [] []).final.started ∧
    (loadDataLoop 2 (fun t => decide (t ≠ 1)) [0] [1, 2, 3] [] []).final.pending =
      [3] := by
  decide

/-- C1 (corrected): the scheduler attempts every track and completes only
when every raced loader succeeds; in general every track is either started
or left in the pending queue, and a rejected loader aborts the loop with the
unstarted tracks still pending, propagating a single failure rather than a
collected set. -/
theorem C1_amended (tb : ℕ) (outcome : ℕ → Bool) (picks pending : List ℕ)
    (hall : ∀ t, outcome t = true) (htb : 0 < tb) (hlen : pending.length ≤ picks.length) :
    (loadDataLoop tb outcome picks pending [] []).status = SchedStatus.completed true ∧
    (loadDataLoop tb outcome picks pending [] []).final.started = pending ∧
    ∀ pk pd fl st,
      (loadDataLoop tb outcome pk pd fl st).final.started ++
        (loadDataLoop tb outcome pk pd fl st).final.pending = st ++ pd := by
  have hc := loadDataLoop_complete tb outcome hall picks pending [] [] htb
    (by simpa using htb) hlen
  refine ⟨hc.1, ?_, fun pk pd fl st => loadDataLoop_concat tb outcome pk pd fl st⟩
  have hcat := loadDataLoop_concat tb outcome picks pending [] []
  rw [hc.2] at hcat
  simpa using hcat

/-- Witness for C1 at three all-successful tracks over two workers. -/
theorem C1_witness :
    (loadDataLoop 2 (fun _ => true) [0, 0, 0] [1, 2, 3] [] []).status =
      SchedStatus.completed true ∧
    (loadDataLoop 2 (fun _ => true) [0, 0, 0] [1, 2, 3] [] []).final.started =
      [1, 2, 3] :=
  ⟨(C1_amended 2 (fun _ => true) [0, 0, 0] [1, 2, 3] (fun _ => rfl) (by decide)
      (by decide)).1,
   (C1_amended 2 (fun _ => true) [0, 0, 0] [1, 2, 3] (fun _ => rfl) (by decide)
      (by decide)).2.1⟩

/-- C3 (confirmed): in every run the number of in-flight track loaders never
exceeds the worker budget min(hardwareConcurrency or 1, 8), which equals
min(availableParallelism, 8) whenever the parallelism is at least 1 and is
never more than 8; and when a completed loader leaves a full in-flight set
with tracks still queued, the next fill starts exactly one queued track. -/
theorem C3_concurrency_bound :
    (∀ hc outcome picks pending,
      ∀ x ∈ (loadDataLoop (threads hc) outcome picks pending [] []).trace,
        x ≤ threads hc) ∧
    (∀ hc, 0 < hc → threads hc = min hc 8) ∧
    (∀ hc, threads hc ≤ 8) ∧
    (∀ tb t ts inFlight started, inFlight.length + 1 = tb →
      startQueued tb (t :: ts) inFlight started =
        ⟨ts, inFlight ++ [t], started ++ [t], [tb]⟩) := by
  refine ⟨?_, ?_, ?_, ?_⟩
  · intro hc outcome picks pending x hx
    exact loadDataLoop_trace_le (threads hc) outcome picks pending [] []
      (Nat.zero_le _) x hx
  · intro hc h
    unfold threads
    rw [Nat.max_eq_left h]
  · intro hc
    exact Nat.min_le_right _ _
  · intro tb t ts f st h
    exact startQueued_replace tb t ts f st h

/-- Witness for C3: a concrete trace element is within the budget, and with
a budget of two and one slot free, filling starts exactly one queued track. -/
theorem C3_witness :
    2 ≤ threads 4 ∧
    startQueued 2 [3] [1] [] = ⟨[], [1, 3], [3], [2]⟩ :=
  ⟨C3_concurrency_bound.1 4 (fun _ => true) [0, 0, 0] [1, 2, 3] 2 (by decide),
   C3_concurrency_bound.2.2.2 2 3 [] [1] [] (by decide)⟩

end Craig
